import Mathlib

/-!
# Verification of the `post_lin_smooth` iterated Kalman smoother library

Shallow embedding of the numerical core of the repository
(cost functions, RTS smoother recursion, SLR linearisation, EKF
linearisation, coordinated-turn model, and the LM / line-search
iteration control described by the specification) over exact rational
arithmetic, together with theorems settling the specification claims.

Vectors are lists of rationals, matrices are lists of row vectors,
mirroring the dense `numpy` arrays of the source.  `np.linalg.inv` is
embedded as the adjugate inverse `npInv` (the exact value `np.linalg.inv`
approximates on a nonsingular matrix).  A `NaN` measurement entry is
embedded as `Option.none`; a computation whose result would be `NaN`
returns `none`.
-/

namespace PostLinSmooth

abbrev Vec := List ℚ
abbrev Mat := List (List ℚ)

def vecAdd (v w : Vec) : Vec := List.zipWith (· + ·) v w

def vecSub (v w : Vec) : Vec := List.zipWith (· - ·) v w

def vecSmul (c : ℚ) (v : Vec) : Vec := v.map (fun x => c * x)

def dot (v w : Vec) : ℚ := (List.zipWith (· * ·) v w).sum

/-- Matrix-vector product `M @ v` for a matrix as a list of rows. -/
def matVec (M : Mat) (v : Vec) : Vec := M.map (fun r => dot r v)

/-- Transpose of a list-of-rows matrix (width taken from the first row). -/
def transpose (M : Mat) : Mat :=
  match M with
  | [] => []
  | r :: _ => (List.range r.length).map (fun j => M.map (fun row => row.getD j 0))

/-- Matrix product `A @ B` for list-of-rows matrices. -/
def matMul (A B : Mat) : Mat := A.map (fun r => (transpose B).map (fun c => dot r c))

def matAdd (A B : Mat) : Mat := List.zipWith vecAdd A B

def matSub (A B : Mat) : Mat := List.zipWith vecSub A B

/-- Quadratic form `vᵀ M v`. -/
def quadForm (v : Vec) (M : Mat) : ℚ := dot v (matVec M v)

/-- Laplace expansion of the determinant along the first row,
with explicit fuel so that the definition is structurally recursive
(and hence reduces inside `decide`/`rfl`). -/
def detAux : Nat → Mat → ℚ
  | _, [] => 1
  | 0, _ => 1
  | fuel + 1, r :: rs =>
      ((List.range r.length).map (fun j =>
        (-1 : ℚ) ^ j * r.getD j 0 *
          detAux fuel (rs.map (fun row => row.eraseIdx j)))).sum

def det (M : Mat) : ℚ := detAux M.length M

/-- Minor of `M` with row `i` and column `j` removed. -/
def minorM (M : Mat) (i j : Nat) : Mat :=
  (M.eraseIdx i).map (fun row => row.eraseIdx j)

/-- Embedding of `np.linalg.inv`: the adjugate inverse
`inv(M)[i][j] = (-1)^(i+j) det(minor M j i) / det M`,
which is the exact inverse of a nonsingular square matrix. -/
def npInv (M : Mat) : Mat :=
  let d := det M
  let n := M.length
  (List.range n).map (fun i =>
    (List.range n).map (fun j =>
      (-1 : ℚ) ^ (i + j) * det (minorM M j i) / d))

/-! ## Models

`src/models/base.py` describes motion/measurement models by a state
mapping plus a (time-indexed) noise covariance; `map_set` is the
row-wise application of `mapping`.  `analytical_smoothing_cost` assumes
time-independent mappings, so a model here is a single mapping
`Vec → Vec` together with `noise : Nat → Mat`. -/

structure Model where
  mapping : Vec → Vec
  noise : Nat → Mat

/-! ## Cost functions (`src/cost.py`) -/

/-- Embedding of `analytical_smoothing_cost` (src/cost.py).
`measurements` entries that are `NaN` rows are embedded as `none`.
The python code accumulates, for `k = 0 .. K-2`, the motion Mahalanobis
term plus (unless the measurement is NaN, in which case `continue`
skips it) the measurement Mahalanobis term, and then adds the final
measurement term `meas_diff[-1]ᵀ R(K)⁻¹ meas_diff[-1]` unconditionally;
a NaN final measurement therefore makes the returned value NaN (`none`).
An empty measurement sequence indexes `meas_diff[-1]` out of range
(`none` as well). -/
def analytical_smoothing_cost (traj : List Vec) (measurements : List (Option Vec))
    (m_1_0 : Vec) (P_1_0 : Mat) (motion_model meas_model : Model) : Option ℚ :=
  let K := measurements.length
  let prior := quadForm (vecSub (traj.headD []) m_1_0) (npInv P_1_0)
  let body := ((List.range (K - 1)).map (fun k =>
    quadForm (vecSub (traj.getD (k + 1) []) (motion_model.mapping (traj.getD k [])))
        (npInv (motion_model.noise k)) +
      (match measurements.getD k none with
       | none => 0
       | some y =>
         quadForm (vecSub y (meas_model.mapping (traj.getD k [])))
           (npInv (meas_model.noise k))))).sum
  match measurements.getLast? with
  | some (some y) =>
      some (prior + body +
        quadForm (vecSub y (meas_model.mapping (traj.getLast?.getD [])))
          (npInv (meas_model.noise K)))
  | _ => none

/-- The cost described by the specification sentence for claim C1:
prior Mahalanobis term plus per-step process-noise terms plus per-step
measurement terms, where *every* time index with a missing (`NaN`)
measurement — the final index included — contributes zero.  Stated for
time-independent models with fixed noises `Q` and `R` (the assumption of
`analytical_smoothing_cost`). -/
def claimed_smoothing_cost (traj : List Vec) (measurements : List (Option Vec))
    (m_1_0 : Vec) (P_1_0 : Mat) (motionMap measMap : Vec → Vec) (Q R : Mat) : ℚ :=
  quadForm (vecSub (traj.headD []) m_1_0) (npInv P_1_0) +
    ((List.range (measurements.length - 1)).map (fun k =>
      quadForm (vecSub (traj.getD (k + 1) []) (motionMap (traj.getD k []))) (npInv Q))).sum +
    ((List.range measurements.length).map (fun k =>
      match measurements.getD k none with
      | none => 0
      | some y => quadForm (vecSub y (measMap (traj.getD k []))) (npInv R))).sum

/-! ## Statistical linear regression (`src/slr/base.py`) -/

/-- Embedding of the static helper `Slr.linear_params_from_slr`:
`A = psiᵀ @ inv(cov)`, `b = z_bar - A @ mean`,
`Sigma = phi - A @ cov @ A.T`. -/
def linear_params_from_slr (mean : Vec) (cov : Mat) (z_bar : Vec) (psi phi : Mat) :
    Mat × Vec × Mat :=
  let A := matMul (transpose psi) (npInv cov)
  let b := vecSub z_bar (matVec A mean)
  let Sigma := matSub phi (matMul (matMul A cov) (transpose A))
  (A, b, Sigma)

/-- The abstract class `Slr`: concrete subclasses (sigma-point, Monte
Carlo) provide the moment computation `slr(fn, mean, cov) -> (z_bar,
psi, phi)`. -/
structure Slr where
  slr : (Vec → Vec) → Vec → Mat → Vec × Mat × Mat

/-- Embedding of `Slr.linear_params`: `np.atleast_1d`/`np.atleast_2d`
are the identity on the 1-D mean and 2-D covariance of the embedding,
after which the moments are computed by `self.slr` and converted by
`linear_params_from_slr`. -/
def Slr.linear_params (S : Slr) (fn : Vec → Vec) (mean : Vec) (cov : Mat) :
    Mat × Vec × Mat :=
  match S.slr fn mean cov with
  | (z_bar, psi, phi) => linear_params_from_slr mean cov z_bar psi phi

/-! ## Analytical (EKF/EKS) linearisation (`src/filter/ekf.py`, `src/smoother/ext/eks.py`) -/

/-- A differentiable model: mapping plus Jacobian. -/
structure DiffModel where
  mapping : Vec → Vec
  jacobian : Vec → Mat

/-- Embedding of `ekf_lin`: `jac = model.jacobian(mean)`,
`offset = model.mapping(mean) - jac @ mean`. -/
def ekf_lin (model : DiffModel) (mean : Vec) : Mat × Vec :=
  let jac := model.jacobian mean
  (jac, vecSub (model.mapping mean) (matVec jac mean))

/-- Embedding of `Ekf._motion_lin` / `Eks._motion_lin`: the pair from
the analytical linearisation together with zero approximation-error
covariance, `(F, b, 0)`. -/
def Ekf_motion_lin (model : DiffModel) (mean : Vec) : Mat × Vec × ℚ :=
  (ekf_lin model mean |>.1, ekf_lin model mean |>.2, 0)

/-! ## RTS smoother backward pass (`src/smoother/base.py`) -/

/-- Embedding of `Smoother._rts_update`.  `lin = (A, b, Q)` is the
motion linearisation; only `A` is used:
`G_k = P_{k-1|k-1} @ A.T @ inv(P_k_kminus1)`,
`m_{k-1|K} = m_{k-1|k-1} + G_k @ (m_{k|K} - m_{k|k-1})`,
`P_{k-1|K} = P_{k-1|k-1} + G_k @ (P_{k|K} - P_{k|k-1}) @ G_k.T`. -/
def rts_update (m_k_K : Vec) (P_k_K : Mat) (m_kminus1_kminus1 : Vec)
    (P_kminus1_kminus1 : Mat) (m_k_kminus1 : Vec) (P_k_kminus1 : Mat)
    (lin : Mat × Vec × Mat) : Vec × Mat :=
  let A := lin.1
  let G_k := matMul (matMul P_kminus1_kminus1 (transpose A)) (npInv P_k_kminus1)
  (vecAdd m_kminus1_kminus1 (matVec G_k (vecSub m_k_K m_k_kminus1)),
   matAdd P_kminus1_kminus1
     (matMul (matMul G_k (matSub P_k_K P_k_kminus1)) (transpose G_k)))

/-- The backward recursion of `Smoother.smooth_seq_pre_comp_filter`,
unrolled from the terminal index: `smoothFrom … d` is the smoothed
(mean, covariance) at array index `K - 1 - d`.  `d = 0` is the
initialisation `_init_smooth_estimates` (the last filtered estimate);
`d + 1` performs the `_rts_update` writing index `j = K - 2 - d` from
index `j + 1`, using the filtered estimate at `j`, the predicted
estimate at `j + 1` and the motion linearisation
`motion_lin(filter_means[j], filter_covs[j], j)` (the loop in the
source passes `k - 1` with `k = j + 1`). -/
def smoothFrom (motion_lin : Vec → Mat → Nat → Mat × Vec × Mat)
    (filter_means : List Vec) (filter_covs : List Mat)
    (pred_means : List Vec) (pred_covs : List Mat) : Nat → Vec × Mat
  | 0 => (filter_means.getLast?.getD [], filter_covs.getLast?.getD [])
  | d + 1 =>
      let K := filter_means.length
      let j := K - 2 - d
      let prev := smoothFrom motion_lin filter_means filter_covs pred_means pred_covs d
      rts_update prev.1 prev.2 (filter_means.getD j []) (filter_covs.getD j [])
        (pred_means.getD (j + 1) []) (pred_covs.getD (j + 1) [])
        (motion_lin (filter_means.getD j []) (filter_covs.getD j []) j)

/-- Embedding of `Smoother.smooth_seq_pre_comp_filter`: the smoothed
sequences of length `K = filter_means.length`, assembled from the
backward recursion `smoothFrom`. -/
def smooth_seq_pre_comp_filter (motion_lin : Vec → Mat → Nat → Mat × Vec × Mat)
    (filter_means : List Vec) (filter_covs : List Mat)
    (pred_means : List Vec) (pred_covs : List Mat) : List Vec × List Mat :=
  let K := filter_means.length
  ((List.range K).map (fun i =>
      (smoothFrom motion_lin filter_means filter_covs pred_means pred_covs (K - 1 - i)).1),
   (List.range K).map (fun i =>
      (smoothFrom motion_lin filter_means filter_covs pred_means pred_covs (K - 1 - i)).2))

/-! ## Coordinated turn model (`src/models/coord_turn.py`) -/

/-- The trigonometric functions used by `CoordTurn`, kept abstract
(the embedding is over exact rationals). -/
structure Trig where
  cos : ℚ → ℚ
  sin : ℚ → ℚ

/-- Division that records division-by-zero as a failure, to make the
guarding in `CoordTurn` observable. -/
def safeDiv (x y : ℚ) : Option ℚ :=
  if y = 0 then none else some (x / y)

/-- The transition matrix `F` of `CoordTurn.mapping`. -/
def coordTurnF (coswt sinwt coswtopw sinwtpw : ℚ) : Mat :=
  [[1, 0, sinwtpw, -coswtopw, 0],
   [0, 1, coswtopw, sinwtpw, 0],
   [0, 0, coswt, sinwt, 0],
   [0, 0, -sinwt, coswt, 0],
   [0, 0, 0, 0, 1]]

namespace CoordTurn

/-- Embedding of `CoordTurn.mapping`: `w = state[4]`; the `w == 0`
branch substitutes `coswtopw = 0` and `sinwtpw = dt` directly, while
the other branch divides `cos(w·dt) - 1` and `sin(w·dt)` by `w`.
Divisions are recorded by `safeDiv`, so a division by zero would
surface as `none`. -/
def mapping (tg : Trig) (dt : ℚ) (state : Vec) : Option Vec :=
  let w := state.getD 4 0
  if w = 0 then
    let coswt := tg.cos (w * dt)
    let sinwt := tg.sin (w * dt)
    some (matVec (coordTurnF coswt sinwt 0 dt) state)
  else do
    let coswt := tg.cos (w * dt)
    let sinwt := tg.sin (w * dt)
    let coswtopw ← safeDiv (coswt - 1) w
    let sinwtpw ← safeDiv sinwt w
    pure (matVec (coordTurnF coswt sinwt coswtopw sinwtpw) state)

/-- The Jacobian matrix assembled by `CoordTurn.jacobian` from its
scalar ingredients (`s2 = state[2]`, `s3 = state[3]`). -/
def jacMat (dt coswt sinwt coswtopw sinwtpw dsinwtpw dcoswtopw s2 s3 : ℚ) : Mat :=
  [[1, 0, sinwtpw, -coswtopw, dsinwtpw * s2 - dcoswtopw * s3],
   [0, 1, coswtopw, sinwtpw, dcoswtopw * s2 + dsinwtpw * s3],
   [0, 0, coswt, sinwt, -dt * sinwt * s2 + dt * coswt * s3],
   [0, 0, -sinwt, coswt, -dt * coswt * s2 - dt * sinwt * s3],
   [0, 0, 0, 0, 1]]

/-- Embedding of `CoordTurn.jacobian`: the `w == 0` branch uses only
the literal limit values `coswt = 1`, `coswtopw = 0`, `sinwt = 0`,
`sinwtpw = dt`, `dsinwtpw = 0`, `dcoswtopw = -dt²/2`; the other branch
divides by `w` and `w²`. -/
def jacobian (tg : Trig) (dt : ℚ) (state : Vec) : Option Mat :=
  let w := state.getD 4 0
  let s2 := state.getD 2 0
  let s3 := state.getD 3 0
  if w = 0 then
    some (jacMat dt 1 0 0 dt 0 (-(1 / 2) * dt ^ 2) s2 s3)
  else do
    let coswt := tg.cos (w * dt)
    let coswto := coswt - 1
    let sinwt := tg.sin (w * dt)
    let coswtopw ← safeDiv coswto w
    let sinwtpw ← safeDiv sinwt w
    let dsinwtpw ← safeDiv (w * dt * coswt - sinwt) (w ^ 2)
    let dcoswtopw ← safeDiv (-(w * dt) * sinwt - coswto) (w ^ 2)
    pure (jacMat dt coswt sinwt coswtopw sinwtpw dsinwtpw dcoswtopw s2 s3)

end CoordTurn

/-! ## Kalman filter forward pass

The class `Filter` with `filter_seq` lives in `src/filter/base.py`,
which is imported by every filter in `src/filter/` but is absent from
the sources; it is modelled here from §4.3 of the specification. -/

/-- Modelled from the spec: the predict step of `Filter.filter_seq`
(`src/filter/base.py`, absent from the sources):
`m_{k|k-1} = A m_{k-1|k-1} + b`,
`P_{k|k-1} = A P_{k-1|k-1} Aᵀ + Q_k + Ω_motion`. -/
def kfPredict (m : Vec) (P : Mat) (lin : Mat × Vec × Mat) (Q : Mat) : Vec × Mat :=
  let A := lin.1
  let b := lin.2.1
  let Om := lin.2.2
  (vecAdd (matVec A m) b,
   matAdd (matAdd (matMul (matMul A P) (transpose A)) Q) Om)

/-- Modelled from the spec: the update step of `Filter.filter_seq`
(`src/filter/base.py`, absent from the sources): standard Kalman gain
form with the linearisation error covariance added to the measurement
noise before inversion; a missing (`NaN`, here `none`) measurement
skips the update and carries the predicted estimate forward. -/
def kfUpdate (m_p : Vec) (P_p : Mat) (lin : Mat × Vec × Mat) (R : Mat)
    (y : Option Vec) : Vec × Mat :=
  match y with
  | none => (m_p, P_p)
  | some y =>
      let H := lin.1
      let c := lin.2.1
      let Om := lin.2.2
      let S := matAdd (matAdd (matMul (matMul H P_p) (transpose H)) R) Om
      let K := matMul (matMul P_p (transpose H)) (npInv S)
      (vecAdd m_p (matVec K (vecSub y (vecAdd (matVec H m_p) c))),
       matSub P_p (matMul (matMul K S) (transpose K)))

/-- Modelled from the spec: the filtering loop of `Filter.filter_seq`
over the remaining measurements, starting at time index `k` with
previous filtered estimate `(m, P)`; returns
`(filter_means, filter_covs, pred_means, pred_covs)`. -/
def filterAux (motion_lin meas_lin : Vec → Mat → Nat → Mat × Vec × Mat)
    (Q R : Nat → Mat) :
    Nat → Vec → Mat → List (Option Vec) → List Vec × List Mat × List Vec × List Mat
  | _, _, _, [] => ([], [], [], [])
  | k, m, P, y :: ys =>
      let pred := kfPredict m P (motion_lin m P k) (Q k)
      let filt := kfUpdate pred.1 pred.2 (meas_lin pred.1 pred.2 k) (R k) y
      let rest := filterAux motion_lin meas_lin Q R (k + 1) filt.1 filt.2 ys
      (filt.1 :: rest.1, filt.2 :: rest.2.1, pred.1 :: rest.2.2.1, pred.2 :: rest.2.2.2)

/-- Modelled from the spec: `Filter.filter_seq(measurements, m_1_0,
P_1_0)` (`src/filter/base.py`, absent from the sources), producing the
filtered and predicted sequences for times `1, …, K`. -/
def filter_seq (motion_lin meas_lin : Vec → Mat → Nat → Mat × Vec × Mat)
    (Q R : Nat → Mat) (measurements : List (Option Vec)) (m_1_0 : Vec) (P_1_0 : Mat) :
    List Vec × List Mat × List Vec × List Mat :=
  filterAux motion_lin meas_lin Q R 1 m_1_0 P_1_0 measurements

/-! ## Levenberg–Marquardt iteration control

`LmIeks` (`src/smoother/ext/lm_ieks.py`) and `SigmaPointLmIpls`
(`src/smoother/slr/lm_ipls.py`) are imported by the experiments and
tests but their files are absent from the sources; the accept/reject
loop is modelled here from §4.5 of the specification.  The inner
filter+smoother pass producing a candidate trajectory from the current
trajectory and the damping value is abstracted as `propose`, and the
true smoothing cost as `cost`. -/

/-- Modelled from the spec: one outer LM iteration of `LmIeks`
(`src/smoother/ext/lm_ieks.py`, absent from the sources) with up to
`r` cost-improvement trials: produce a candidate with the current
damping `lam`; if its true cost improves on the current cost, accept
it and divide `lam` by `nu`; otherwise multiply `lam` by `nu` and
retry; `none` when the trial limit is exhausted without improvement. -/
def lmInner (propose : List Vec → ℚ → List Vec) (cost : List Vec → ℚ) (nu : ℚ) :
    Nat → List Vec → ℚ → Option (List Vec × ℚ)
  | 0, _, _ => none
  | r + 1, cur, lam =>
      let cand := propose cur lam
      if cost cand < cost cur then some (cand, lam / nu)
      else lmInner propose cost nu r cur (lam * nu)

/-- Modelled from the spec: the outer LM loop of `LmIeks`
(`src/smoother/ext/lm_ieks.py`, absent from the sources): up to `n`
outer iterations from the current trajectory `cur` and damping `lam`;
each accepted iteration records the cost of the accepted trajectory;
when the inner trial limit `lim` is exhausted the loop terminates
early, returning the best (current) trajectory instead of raising. -/
def lmOuter (propose : List Vec → ℚ → List Vec) (cost : List Vec → ℚ) (nu : ℚ)
    (lim : Nat) : Nat → List Vec → ℚ → List Vec × List ℚ
  | 0, cur, _ => (cur, [])
  | n + 1, cur, lam =>
      match lmInner propose cost nu lim cur lam with
      | some nextState =>
          let rest := lmOuter propose cost nu lim n nextState.1 nextState.2
          (rest.1, cost nextState.1 :: rest.2)
      | none => (cur, [])

/-- Modelled from the spec and the docstring of `run_smoothing`
(`exp/tunnel_sim_metrics.py`): the per-iteration metric padding of
`calc_iter_metrics` (`exp/coord_turn_bearings_only.py`, absent from
the sources) — a metrics list is extended with its last element to
length `num_iter`. -/
def pad_metrics (metrics : List ℚ) (num_iter : Nat) : List ℚ :=
  metrics ++ List.replicate (num_iter - metrics.length) (metrics.getLastD 0)

/-! ## Armijo line search

The line-search smoothers (`LsIeks`) are absent from the sources; the
Armijo backtracking is modelled here from §4.5 of the specification.
`dd` is the scalar `directional_derivative · p`. -/

/-- The Armijo sufficient-decrease condition
`cost(x + α·p) ≤ cost(x) + c₁·α·(directional_derivative · p)`. -/
def armijoCond (cost : List Vec → ℚ) (x p : List Vec) (dd c1 alpha : ℚ) : Prop :=
  cost (List.zipWith (fun xr pr => vecAdd xr (vecSmul alpha pr)) x p) ≤
    cost x + c1 * alpha * dd

instance (cost : List Vec → ℚ) (x p : List Vec) (dd c1 alpha : ℚ) :
    Decidable (armijoCond cost x p dd c1 alpha) := by
  unfold armijoCond; infer_instance

/-- Modelled from the spec: geometric backtracking of `LsIeks`
(absent from the sources): test the Armijo condition at the current
step size `alpha`, halving until it is satisfied or the trial budget
runs out, in which case `alpha = 0` (a no-op step) is accepted. -/
def backtrack (cost : List Vec → ℚ) (x p : List Vec) (dd c1 : ℚ) :
    Nat → ℚ → ℚ
  | 0, _ => 0
  | n + 1, alpha =>
      if armijoCond cost x p dd c1 alpha then alpha
      else backtrack cost x p dd c1 n (alpha / 2)

/-- Modelled from the spec: the accepted step size of the line-search
smoothers — geometric backtracking starting from `alpha = 1`. -/
def line_search (cost : List Vec → ℚ) (x p : List Vec) (dd c1 : ℚ)
    (max_trials : Nat) : ℚ :=
  backtrack cost x p dd c1 max_trials 1

/-! ## Shared helper lemmas -/

theorem getD_range_map {α : Type} (n i : Nat) (f : Nat → α) (d : α) (h : i < n) :
    ((List.range n).map f).getD i d = f i := by
  rw [List.getD_eq_getElem?_getD, List.getElem?_map, List.getElem?_range h]
  rfl

theorem getLast?_getD_eq_getD {α : Type} (l : List α) (d : α) :
    l.getLast?.getD d = l.getD (l.length - 1) d := by
  rw [List.getLast?_eq_getElem?, List.getD_eq_getElem?_getD]

theorem getLast?_eq_some_getD {α : Type} (l : List α) (a d : α)
    (h : l.getLast? = some a) : l.getD (l.length - 1) d = a := by
  rw [List.getD_eq_getElem?_getD, ← List.getLast?_eq_getElem?, h]
  rfl

theorem sum_map_add (l : List ℕ) (f g : ℕ → ℚ) :
    (l.map (fun k => f k + g k)).sum = (l.map f).sum + (l.map g).sum := by
  induction l with
  | nil => simp
  | cons a l ih => simp [ih]; ring

theorem vecAdd_vecSub_cancel (z v : Vec) (h : z.length = v.length) :
    vecAdd (vecSub z v) v = z := by
  induction z generalizing v with
  | nil => simp [vecAdd, vecSub]
  | cons a z ih =>
      cases v with
      | nil => simp at h
      | cons b v =>
          simp only [List.length_cons, Nat.add_right_cancel_iff] at h
          have ht := ih v h
          simp only [vecAdd, vecSub, List.zipWith_cons_cons] at ht ⊢
          rw [ht, show a - b + b = a by ring]

theorem matAdd_matSub_cancel (A B : Mat) (h : A.map List.length = B.map List.length) :
    matAdd (matSub A B) B = A := by
  induction A generalizing B with
  | nil => simp [matAdd, matSub]
  | cons r A ih =>
      cases B with
      | nil => simp at h
      | cons s B =>
          simp only [List.map_cons, List.cons.injEq] at h
          have ht := ih B h.2
          simp only [matAdd, matSub, List.zipWith_cons_cons] at ht ⊢
          rw [ht, vecAdd_vecSub_cancel r s h.1]

/-! ## Claim theorems -/

/-- C4: for every mean, covariance and SLR moments `(z_bar, psi, phi)`,
`linear_params_from_slr` returns exactly `A = psiᵀ cov⁻¹`,
`b = z_bar - A mean` (equivalently `b + A mean = z_bar`) and
`Omega = phi - A cov Aᵀ` (equivalently `Omega + A cov Aᵀ = phi`),
the latter two stated in cancellation form under the dimension
conditions that make the subtraction lossless. -/
theorem C4_linear_params_from_slr (mean : Vec) (cov : Mat) (z_bar : Vec) (psi phi : Mat)
    (hb : z_bar.length =
      (matVec (matMul (transpose psi) (npInv cov)) mean).length)
    (hphi : phi.map List.length =
      (matMul (matMul (matMul (transpose psi) (npInv cov)) cov)
        (transpose (matMul (transpose psi) (npInv cov)))).map List.length) :
    (linear_params_from_slr mean cov z_bar psi phi).1 =
        matMul (transpose psi) (npInv cov)
    ∧ vecAdd (linear_params_from_slr mean cov z_bar psi phi).2.1
        (matVec (matMul (transpose psi) (npInv cov)) mean) = z_bar
    ∧ matAdd (linear_params_from_slr mean cov z_bar psi phi).2.2
        (matMul (matMul (matMul (transpose psi) (npInv cov)) cov)
          (transpose (matMul (transpose psi) (npInv cov)))) = phi := by
  refine ⟨rfl, ?_, ?_⟩
  · exact vecAdd_vecSub_cancel _ _ hb
  · exact matAdd_matSub_cancel _ _ hphi

theorem C4_witness :
    ([3] : Vec).length =
        (matVec (matMul (transpose [[4]]) (npInv [[2]])) [1]).length
    ∧ vecAdd (linear_params_from_slr [1] [[2]] [3] [[4]] [[5]]).2.1
        (matVec (matMul (transpose [[4]]) (npInv [[2]])) [1]) = [3] := by
  refine ⟨by with_unfolding_all decide, ?_⟩
  exact (C4_linear_params_from_slr [1] [[2]] [3] [[4]] [[5]]
    (by with_unfolding_all decide) (by with_unfolding_all decide)).2.1

/-- C9: `Slr.linear_params fn mean cov` coincides with the composition
of the two public steps: `linear_params_from_slr mean cov` applied to
the moment triple `slr fn mean cov`, for every `Slr` instance, mapping
function, 1-D mean and 2-D covariance. -/
theorem C9_linear_params_is_composition (S : Slr) (fn : Vec → Vec) (mean : Vec) (cov : Mat) :
    S.linear_params fn mean cov =
      linear_params_from_slr mean cov (S.slr fn mean cov).1
        (S.slr fn mean cov).2.1 (S.slr fn mean cov).2.2 := by
  unfold Slr.linear_params
  rcases h : S.slr fn mean cov with ⟨z_bar, psi, phi⟩
  rfl

/-- C8: the analytical (EKF/EKS) linearisation returns `A` equal to
the model Jacobian at `mean`, `b = mapping(mean) - A mean`
(equivalently `b + A mean = mapping(mean)`), and zero
approximation-error covariance. -/
theorem C8_analytical_linearization (model : DiffModel) (mean : Vec)
    (hlen : (model.mapping mean).length =
      (matVec (model.jacobian mean) mean).length) :
    (Ekf_motion_lin model mean).1 = model.jacobian mean
    ∧ vecAdd (Ekf_motion_lin model mean).2.1 (matVec (model.jacobian mean) mean) =
        model.mapping mean
    ∧ (Ekf_motion_lin model mean).2.2 = 0 := by
  refine ⟨rfl, ?_, rfl⟩
  exact vecAdd_vecSub_cancel _ _ hlen

theorem C8_witness :
    ((DiffModel.mk (fun v => v) (fun _ => [[1]])).mapping [2]).length =
        (matVec ((DiffModel.mk (fun v => v) (fun _ => [[1]])).jacobian [2]) [2]).length
    ∧ vecAdd (Ekf_motion_lin (DiffModel.mk (fun v => v) (fun _ => [[1]])) [2]).2.1
        (matVec ((DiffModel.mk (fun v => v) (fun _ => [[1]])).jacobian [2]) [2]) =
      (DiffModel.mk (fun v => v) (fun _ => [[1]])).mapping [2] := by
  refine ⟨by with_unfolding_all decide, ?_⟩
  exact (C8_analytical_linearization (DiffModel.mk (fun v => v) (fun _ => [[1]])) [2]
    (by with_unfolding_all decide)).2.1

/-- C10: for every 5-dimensional state with zero turn-rate component,
`CoordTurn.mapping` and `CoordTurn.jacobian` are well-defined (no
division by zero occurs, witnessed by a `some` result) and the guarded
`w == 0` branch substitutes the limit values: `sin(w·dt)/w` is replaced
by `dt`, `(cos(w·dt)-1)/w` by `0`, and in the Jacobian the derivative
slots become `0` and `-dt²/2`. -/
theorem C10_coord_turn_zero_turn_rate (tg : Trig) (dt : ℚ) (state : Vec)
    (h : state.getD 4 0 = 0) :
    CoordTurn.mapping tg dt state =
      some (matVec (coordTurnF (tg.cos 0) (tg.sin 0) 0 dt) state)
    ∧ CoordTurn.jacobian tg dt state =
      some (CoordTurn.jacMat dt 1 0 0 dt 0 (-(1 / 2) * dt ^ 2)
        (state.getD 2 0) (state.getD 3 0)) := by
  constructor
  · unfold CoordTurn.mapping
    rw [h]
    simp
  · unfold CoordTurn.jacobian
    rw [h]
    simp

theorem C10_witness :
    ([0, 0, 0, 0, 0] : Vec).getD 4 0 = 0
    ∧ CoordTurn.mapping (Trig.mk (fun _ => 1) (fun _ => 0)) 1 [0, 0, 0, 0, 0] =
        some (matVec
          (coordTurnF ((Trig.mk (fun _ => 1) (fun _ => 0)).cos 0)
            ((Trig.mk (fun _ => 1) (fun _ => 0)).sin 0) 0 1)
          [0, 0, 0, 0, 0]) := by
  refine ⟨by with_unfolding_all decide, ?_⟩
  exact (C10_coord_turn_zero_turn_rate (Trig.mk (fun _ => 1) (fun _ => 0)) 1
    [0, 0, 0, 0, 0] (by with_unfolding_all decide)).1

/-- C1 (counterexample): at trajectory `[[0]]` with the single
measurement missing (`NaN`), `analytical_smoothing_cost` returns `NaN`
(`none`) — the final measurement term is added unconditionally — while
the claimed sum, in which a `NaN` at the final index contributes zero,
is the finite value `0`. -/
theorem C1_counterexample :
    analytical_smoothing_cost [[0]] [none] [0] [[1]]
        (Model.mk (fun v => v) (fun _ => [[1]])) (Model.mk (fun v => v) (fun _ => [[1]]))
      = none
    ∧ claimed_smoothing_cost [[0]] [none] [0] [[1]]
        (fun v => v) (fun v => v) [[1]] [[1]] = 0 := by
  with_unfolding_all decide

/-- C1 (amended): for time-independent models (constant noises `Q`,
`R`), whenever the *final* measurement is present,
`analytical_smoothing_cost` returns the sum of the prior Mahalanobis
term, the per-step process-noise Mahalanobis terms and the per-step
measurement Mahalanobis terms, every *non-final* time index with a
`NaN` measurement contributing zero; a `NaN` at the final index `K`
instead makes the returned cost `NaN` (see `C1_counterexample`). -/
theorem C1_amended_cost_decomposition
    (traj : List Vec) (measurements : List (Option Vec)) (m_1_0 : Vec) (P_1_0 : Mat)
    (motion_model meas_model : Model) (Q R : Mat) (y : Vec)
    (htraj : traj.length = measurements.length)
    (hlast : measurements.getLast? = some (some y))
    (hQ : ∀ k, motion_model.noise k = Q) (hR : ∀ k, meas_model.noise k = R) :
    analytical_smoothing_cost traj measurements m_1_0 P_1_0 motion_model meas_model
      = some (claimed_smoothing_cost traj measurements m_1_0 P_1_0
          motion_model.mapping meas_model.mapping Q R) := by
  obtain ⟨m, hm⟩ : ∃ m, measurements.length = m + 1 := by
    cases measurements with
    | nil => simp [List.getLast?] at hlast
    | cons a l => exact ⟨l.length, rfl⟩
  have hgd : measurements.getD m none = some y := by
    have h2 := getLast?_eq_some_getD measurements (some y) none hlast
    rwa [hm, Nat.add_sub_cancel] at h2
  have htl : traj.getLast?.getD [] = traj.getD m [] := by
    rw [getLast?_getD_eq_getD, htraj, hm, Nat.add_sub_cancel]
  unfold analytical_smoothing_cost claimed_smoothing_cost
  rw [hlast]
  simp only [hQ, hR, htl, hm, Nat.add_sub_cancel]
  rw [List.range_succ, List.map_append, List.sum_append, sum_map_add]
  simp only [List.map_cons, List.map_nil, List.sum_cons, List.sum_nil, hgd]
  congr 1
  ring

theorem C1_amended_witness :
    ([some [0]] : List (Option Vec)).getLast? = some (some [0])
    ∧ analytical_smoothing_cost [[0]] [some [0]] [0] [[1]]
        (Model.mk (fun v => v) (fun _ => [[1]])) (Model.mk (fun v => v) (fun _ => [[1]]))
      = some (claimed_smoothing_cost [[0]] [some [0]] [0] [[1]]
          (Model.mk (fun v => v) (fun _ => [[1]])).mapping
          (Model.mk (fun v => v) (fun _ => [[1]])).mapping [[1]] [[1]]) := by
  refine ⟨by with_unfolding_all decide, ?_⟩
  exact C1_amended_cost_decomposition [[0]] [some [0]] [0] [[1]]
    (Model.mk (fun v => v) (fun _ => [[1]])) (Model.mk (fun v => v) (fun _ => [[1]]))
    [[1]] [[1]] [0] (by with_unfolding_all decide) (by with_unfolding_all decide)
    (fun _ => rfl) (fun _ => rfl)

/-- C3: `smooth_seq_pre_comp_filter` initialises the smoothed estimate
at the terminal index `K` directly from the last filtered mean and
covariance, and for every `k` with `2 ≤ k ≤ K` the smoothed estimate
at index `k-1` (0-based `k-2`) is the RTS update of the one at index
`k` (0-based `k-1`): with `A` the motion linearisation matrix at
`k-1`, the gain is `G_k = P_{k-1|k-1} Aᵀ P_{k|k-1}⁻¹`, the mean
`m_{k-1|K} = m_{k-1|k-1} + G_k (m_{k|K} - m_{k|k-1})` and the
covariance `P_{k-1|K} = P_{k-1|k-1} + G_k (P_{k|K} - P_{k|k-1}) G_kᵀ`. -/
theorem C3_rts_backward_recursion
    (motion_lin : Vec → Mat → Nat → Mat × Vec × Mat)
    (fm pm : List Vec) (fc pc : List Mat) (K k : Nat)
    (hK : fm.length = K) (hfc : fc.length = K)
    (hK1 : 1 ≤ K) (hk2 : 2 ≤ k) (hkK : k ≤ K) :
    ((smooth_seq_pre_comp_filter motion_lin fm fc pm pc).1.getD (K - 1) [] =
        fm.getD (K - 1) []
      ∧ (smooth_seq_pre_comp_filter motion_lin fm fc pm pc).2.getD (K - 1) [] =
        fc.getD (K - 1) [])
    ∧ ((smooth_seq_pre_comp_filter motion_lin fm fc pm pc).1.getD (k - 2) [] =
        vecAdd (fm.getD (k - 2) [])
          (matVec
            (matMul (matMul (fc.getD (k - 2) [])
              (transpose (motion_lin (fm.getD (k - 2) []) (fc.getD (k - 2) []) (k - 2)).1))
              (npInv (pc.getD (k - 1) [])))
            (vecSub ((smooth_seq_pre_comp_filter motion_lin fm fc pm pc).1.getD (k - 1) [])
              (pm.getD (k - 1) [])))
      ∧ (smooth_seq_pre_comp_filter motion_lin fm fc pm pc).2.getD (k - 2) [] =
        matAdd (fc.getD (k - 2) [])
          (matMul
            (matMul
              (matMul (matMul (fc.getD (k - 2) [])
                (transpose (motion_lin (fm.getD (k - 2) []) (fc.getD (k - 2) []) (k - 2)).1))
                (npInv (pc.getD (k - 1) [])))
              (matSub ((smooth_seq_pre_comp_filter motion_lin fm fc pm pc).2.getD (k - 1) [])
                (pc.getD (k - 1) [])))
            (transpose (matMul (matMul (fc.getD (k - 2) [])
              (transpose (motion_lin (fm.getD (k - 2) []) (fc.getD (k - 2) []) (k - 2)).1))
              (npInv (pc.getD (k - 1) [])))))) := by
  subst hK
  have hsm1 : ∀ i, i < fm.length →
      (smooth_seq_pre_comp_filter motion_lin fm fc pm pc).1.getD i [] =
        (smoothFrom motion_lin fm fc pm pc (fm.length - 1 - i)).1 := by
    intro i hi
    exact getD_range_map _ _ _ _ hi
  have hsm2 : ∀ i, i < fm.length →
      (smooth_seq_pre_comp_filter motion_lin fm fc pm pc).2.getD i [] =
        (smoothFrom motion_lin fm fc pm pc (fm.length - 1 - i)).2 := by
    intro i hi
    exact getD_range_map _ _ _ _ hi
  have e0 : fm.length - 1 - (fm.length - 1) = 0 := by omega
  have e1 : fm.length - 1 - (k - 2) = (fm.length - k) + 1 := by omega
  have e2 : fm.length - 1 - (k - 1) = fm.length - k := by omega
  have e3 : fm.length - 2 - (fm.length - k) = k - 2 := by omega
  have e4 : k - 2 + 1 = k - 1 := by omega
  refine ⟨⟨?_, ?_⟩, ?_, ?_⟩
  · rw [hsm1 _ (by omega), e0]
    simp only [smoothFrom]
    rw [getLast?_getD_eq_getD]
  · rw [hsm2 _ (by omega), e0]
    simp only [smoothFrom]
    rw [getLast?_getD_eq_getD, hfc]
  · rw [hsm1 _ (by omega), hsm1 _ (by omega), e1, e2]
    simp only [smoothFrom, rts_update, e3, e4]
  · rw [hsm2 _ (by omega), hsm2 _ (by omega), e1, e2]
    simp only [smoothFrom, rts_update, e3, e4]

theorem C3_witness :
    (([[0], [0]] : List Vec).length = 2 ∧ (2 : Nat) ≤ 2)
    ∧ ((smooth_seq_pre_comp_filter (fun _ _ _ => ([[0]], [0], [[0]]))
          [[0], [0]] [[[1]], [[1]]] [[0], [0]] [[[1]], [[1]]]).1.getD (2 - 1) [] =
        ([[0], [0]] : List Vec).getD (2 - 1) []
      ∧ (smooth_seq_pre_comp_filter (fun _ _ _ => ([[0]], [0], [[0]]))
          [[0], [0]] [[[1]], [[1]]] [[0], [0]] [[[1]], [[1]]]).1.getD (2 - 2) [] =
        vecAdd (([[0], [0]] : List Vec).getD (2 - 2) [])
          (matVec
            (matMul (matMul (([[[1]], [[1]]] : List Mat).getD (2 - 2) [])
              (transpose ((fun (_ : Vec) (_ : Mat) (_ : Nat) =>
                (([[0]] : Mat), ([0] : Vec), ([[0]] : Mat)))
                (([[0], [0]] : List Vec).getD (2 - 2) [])
                (([[[1]], [[1]]] : List Mat).getD (2 - 2) []) (2 - 2)).1))
              (npInv (([[[1]], [[1]]] : List Mat).getD (2 - 1) [])))
            (vecSub ((smooth_seq_pre_comp_filter (fun _ _ _ => ([[0]], [0], [[0]]))
                [[0], [0]] [[[1]], [[1]]] [[0], [0]] [[[1]], [[1]]]).1.getD (2 - 1) [])
              (([[0], [0]] : List Vec).getD (2 - 1) [])))) := by
  refine ⟨by with_unfolding_all decide, ?_, ?_⟩
  · exact (C3_rts_backward_recursion (fun _ _ _ => ([[0]], [0], [[0]]))
      [[0], [0]] [[0], [0]] [[[1]], [[1]]] [[[1]], [[1]]] 2 2
      (by with_unfolding_all decide) (by with_unfolding_all decide)
      (by with_unfolding_all decide) (by with_unfolding_all decide)
      (by with_unfolding_all decide)).1.1
  · exact (C3_rts_backward_recursion (fun _ _ _ => ([[0]], [0], [[0]]))
      [[0], [0]] [[0], [0]] [[[1]], [[1]]] [[[1]], [[1]]] 2 2
      (by with_unfolding_all decide) (by with_unfolding_all decide)
      (by with_unfolding_all decide) (by with_unfolding_all decide)
      (by with_unfolding_all decide)).2.1

theorem filterAux_nan_skip (motion_lin meas_lin : Vec → Mat → Nat → Mat × Vec × Mat)
    (Q R : Nat → Mat) :
    ∀ (ys : List (Option Vec)) (k t : Nat) (m : Vec) (P : Mat),
      ys[k]? = some none →
      ((filterAux motion_lin meas_lin Q R t m P ys).1.getD k [] =
          (filterAux motion_lin meas_lin Q R t m P ys).2.2.1.getD k []
        ∧ (filterAux motion_lin meas_lin Q R t m P ys).2.1.getD k [] =
          (filterAux motion_lin meas_lin Q R t m P ys).2.2.2.getD k [])
  | [], k, t, m, P, h => by simp at h
  | y :: ys, 0, t, m, P, h => by
      simp only [List.getElem?_cons_zero, Option.some.injEq] at h
      subst h
      simp [filterAux, kfUpdate]
  | y :: ys, k + 1, t, m, P, h => by
      simp only [List.getElem?_cons_succ] at h
      simp only [filterAux, List.getD_cons_succ]
      exact filterAux_nan_skip motion_lin meas_lin Q R ys k (t + 1) _ _ h

/-- C7: for every measurement sequence and every time index `k` whose
measurement is missing (`NaN`), the modelled Kalman filter skips the
update at `k` and carries the prediction forward: the filtered mean and
covariance returned by `filter_seq` at index `k` equal the predicted
mean and covariance at index `k`. -/
theorem C7_nan_measurement_carries_prediction
    (motion_lin meas_lin : Vec → Mat → Nat → Mat × Vec × Mat) (Q R : Nat → Mat)
    (measurements : List (Option Vec)) (m_1_0 : Vec) (P_1_0 : Mat) (k : Nat)
    (h : measurements[k]? = some none) :
    (filter_seq motion_lin meas_lin Q R measurements m_1_0 P_1_0).1.getD k [] =
        (filter_seq motion_lin meas_lin Q R measurements m_1_0 P_1_0).2.2.1.getD k []
    ∧ (filter_seq motion_lin meas_lin Q R measurements m_1_0 P_1_0).2.1.getD k [] =
        (filter_seq motion_lin meas_lin Q R measurements m_1_0 P_1_0).2.2.2.getD k [] :=
  filterAux_nan_skip motion_lin meas_lin Q R measurements k 1 m_1_0 P_1_0 h

theorem C7_witness :
    (([none] : List (Option Vec))[0]? = some none)
    ∧ (filter_seq (fun _ _ _ => ([[1]], [0], [[0]])) (fun _ _ _ => ([[1]], [0], [[0]]))
          (fun _ => [[1]]) (fun _ => [[1]]) [none] [0] [[1]]).1.getD 0 [] =
        (filter_seq (fun _ _ _ => ([[1]], [0], [[0]])) (fun _ _ _ => ([[1]], [0], [[0]]))
          (fun _ => [[1]]) (fun _ => [[1]]) [none] [0] [[1]]).2.2.1.getD 0 [] := by
  refine ⟨by with_unfolding_all decide, ?_⟩
  exact (C7_nan_measurement_carries_prediction (fun _ _ _ => ([[1]], [0], [[0]]))
    (fun _ _ _ => ([[1]], [0], [[0]])) (fun _ => [[1]]) (fun _ => [[1]])
    [none] [0] [[1]] 0 (by with_unfolding_all decide)).1

theorem lmInner_some_lt (propose : List Vec → ℚ → List Vec) (cost : List Vec → ℚ)
    (nu : ℚ) :
    ∀ (r : Nat) (cur : List Vec) (lam : ℚ) (next : List Vec) (lam2 : ℚ),
      lmInner propose cost nu r cur lam = some (next, lam2) → cost next < cost cur
  | 0, cur, lam, next, lam2, h => by simp [lmInner] at h
  | r + 1, cur, lam, next, lam2, h => by
      simp only [lmInner] at h
      by_cases hc : cost (propose cur lam) < cost cur
      · rw [if_pos hc] at h
        simp only [Option.some.injEq, Prod.mk.injEq] at h
        rw [← h.1]
        exact hc
      · rw [if_neg hc] at h
        exact lmInner_some_lt propose cost nu r cur (lam * nu) next lam2 h

theorem lmOuter_chain (propose : List Vec → ℚ → List Vec) (cost : List Vec → ℚ)
    (nu : ℚ) (lim : Nat) :
    ∀ (n : Nat) (cur : List Vec) (lam : ℚ),
      List.Chain' (fun a b => b ≤ a)
        (cost cur :: (lmOuter propose cost nu lim n cur lam).2)
  | 0, cur, lam => by simp [lmOuter]
  | n + 1, cur, lam => by
      simp only [lmOuter]
      cases h : lmInner propose cost nu lim cur lam with
      | none => simp
      | some s =>
          have hlt := lmInner_some_lt propose cost nu lim cur lam s.1 s.2 (by rw [h])
          rw [List.chain'_cons]
          exact ⟨le_of_lt hlt, lmOuter_chain propose cost nu lim n s.1 s.2⟩

/-- C2: in the modelled LM acceptance loop, the cost-trace of accepted
outer iterations (prefixed with the initial cost) is non-increasing;
a candidate is accepted only if its true cost strictly improves on the
cost of the current trajectory; and one acceptance trial accepts the
candidate with `lambda / nu` exactly when its cost improves, and
otherwise retries with `lambda * nu`. -/
theorem C2_lm_cost_trace_non_increasing (propose : List Vec → ℚ → List Vec)
    (cost : List Vec → ℚ) (nu : ℚ) (lim n : Nat) (init : List Vec) (lam0 : ℚ) :
    List.Chain' (fun a b => b ≤ a)
      (cost init :: (lmOuter propose cost nu lim n init lam0).2)
    ∧ (∀ r cur lam next lam2,
        lmInner propose cost nu r cur lam = some (next, lam2) → cost next < cost cur)
    ∧ (∀ r cur lam, lmInner propose cost nu (r + 1) cur lam =
        if cost (propose cur lam) < cost cur then some (propose cur lam, lam / nu)
        else lmInner propose cost nu r cur (lam * nu)) :=
  ⟨lmOuter_chain propose cost nu lim n init lam0,
   fun r cur lam next lam2 h => lmInner_some_lt propose cost nu r cur lam next lam2 h,
   fun _ _ _ => rfl⟩

theorem C2_witness :
    List.Chain' (fun a b => b ≤ a)
      ((fun t => if t = ([] : List Vec) then (0 : ℚ) else 1) [[0]] ::
        (lmOuter (fun _ _ => ([] : List Vec))
          (fun t => if t = ([] : List Vec) then (0 : ℚ) else 1) 2 1 1 [[0]] 1).2)
    ∧ (fun t => if t = ([] : List Vec) then (0 : ℚ) else 1) ([] : List Vec) <
        (fun t => if t = ([] : List Vec) then (0 : ℚ) else 1) [[0]] := by
  have H := C2_lm_cost_trace_non_increasing (fun _ _ => ([] : List Vec))
    (fun t => if t = ([] : List Vec) then (0 : ℚ) else 1) 2 1 1 [[0]] 1
  exact ⟨H.1, H.2.1 1 [[0]] 1 [] (1 / 2) (by with_unfolding_all decide)⟩

theorem lmInner_none_of_no_improvement (propose : List Vec → ℚ → List Vec)
    (cost : List Vec → ℚ) (nu : ℚ) (init : List Vec)
    (hno : ∀ lam, ¬ cost (propose init lam) < cost init) :
    ∀ (r : Nat) (lam : ℚ), lmInner propose cost nu r init lam = none
  | 0, _ => rfl
  | r + 1, lam => by
      simp only [lmInner]
      rw [if_neg (hno lam)]
      exact lmInner_none_of_no_improvement propose cost nu init hno r (lam * nu)

/-- C6: when the acceptance trials of the modelled LM loop exhaust
without any cost improvement, the loop returns the best (initial)
trajectory instead of failing, and the per-iteration cost metrics,
padded by `pad_metrics`, have length `num_iter` with the last recorded
value repeated throughout. -/
theorem C6_exhausted_retries_best_so_far (propose : List Vec → ℚ → List Vec)
    (cost : List Vec → ℚ) (nu : ℚ) (lim n : Nat) (init : List Vec) (lam0 : ℚ)
    (hn : 1 ≤ n)
    (hno : ∀ lam, ¬ cost (propose init lam) < cost init) :
    (lmOuter propose cost nu lim n init lam0).1 = init
    ∧ (pad_metrics (cost init :: (lmOuter propose cost nu lim n init lam0).2) n).length = n
    ∧ ∀ q ∈ pad_metrics (cost init :: (lmOuter propose cost nu lim n init lam0).2) n,
        q = cost init := by
  obtain ⟨m, rfl⟩ : ∃ m, n = m + 1 := ⟨n - 1, by omega⟩
  have houter : lmOuter propose cost nu lim (m + 1) init lam0 = (init, []) := by
    simp only [lmOuter]
    rw [lmInner_none_of_no_improvement propose cost nu init hno lim lam0]
  rw [houter]
  refine ⟨rfl, ?_, ?_⟩
  · simp [pad_metrics]
  · intro q hq
    simp only [pad_metrics, List.getLastD, List.mem_append, List.mem_singleton,
      List.mem_replicate] at hq
    rcases hq with h1 | h1
    · simpa using h1
    · exact h1.2

theorem C6_witness :
    (1 : Nat) ≤ 1
    ∧ (lmOuter (fun t _ => t) (fun _ => (0 : ℚ)) 1 1 1 [[0]] 1).1 = [[0]] :=
  ⟨le_refl 1,
   (C6_exhausted_retries_best_so_far (fun t _ => t) (fun _ => (0 : ℚ)) 1 1 1 [[0]] 1
     (le_refl 1) (fun _ => lt_irrefl 0)).1⟩

theorem vecAdd_smul_zero (v w : Vec) (h : v.length = w.length) :
    vecAdd v (vecSmul 0 w) = v := by
  induction v generalizing w with
  | nil => simp [vecAdd]
  | cons a v ih =>
      cases w with
      | nil => simp at h
      | cons b w =>
          simp only [List.length_cons, Nat.add_right_cancel_iff] at h
          simp only [vecAdd, vecSmul, List.map_cons, List.zipWith_cons_cons]
          rw [show a + 0 * b = a by ring]
          have hv := ih w h
          simp only [vecAdd, vecSmul] at hv
          rw [hv]

theorem zipWith_step_zero (x p : List Vec) (h : x.map List.length = p.map List.length) :
    List.zipWith (fun xr pr => vecAdd xr (vecSmul 0 pr)) x p = x := by
  induction x generalizing p with
  | nil => simp
  | cons r x ih =>
      cases p with
      | nil => simp at h
      | cons s p =>
          simp only [List.map_cons, List.cons.injEq] at h
          simp only [List.zipWith_cons_cons]
          rw [vecAdd_smul_zero r s h.1, ih p h.2]

theorem backtrack_spec (cost : List Vec → ℚ) (x p : List Vec) (dd c1 : ℚ) :
    ∀ (n : Nat) (a : ℚ),
      (backtrack cost x p dd c1 n a = 0
        ∧ ∀ j, j < n → ¬ armijoCond cost x p dd c1 (a / 2 ^ j))
      ∨ (∃ i, i < n ∧ backtrack cost x p dd c1 n a = a / 2 ^ i
          ∧ armijoCond cost x p dd c1 (a / 2 ^ i)
          ∧ ∀ j, j < i → ¬ armijoCond cost x p dd c1 (a / 2 ^ j))
  | 0, a => Or.inl ⟨rfl, fun j hj => absurd hj (Nat.not_lt_zero j)⟩
  | n + 1, a => by
      have hdd : ∀ (b : ℚ) (j : Nat), b / 2 / 2 ^ j = b / 2 ^ (j + 1) := by
        intro b j
        rw [div_div, pow_succ, mul_comm]
      by_cases hc : armijoCond cost x p dd c1 a
      · right
        refine ⟨0, by omega, ?_, ?_, fun j hj => absurd hj (by omega)⟩
        · simp only [backtrack, if_pos hc, pow_zero, div_one]
        · simpa using hc
      · rcases backtrack_spec cost x p dd c1 n (a / 2) with ⟨h0, hall⟩ | ⟨i, hin, heq, hcond, hprev⟩
        · left
          constructor
          · simp only [backtrack, if_neg hc, h0]
          · intro j hj
            cases j with
            | zero => simpa using hc
            | succ j =>
                have hj2 := hall j (by omega)
                rwa [hdd] at hj2
        · right
          refine ⟨i + 1, by omega, ?_, ?_, ?_⟩
          · rw [← hdd]
            simp only [backtrack, if_neg hc]
            exact heq
          · rwa [hdd] at hcond
          · intro j hj
            cases j with
            | zero => simpa using hc
            | succ j =>
                have hj2 := hprev j (by omega)
                rwa [hdd] at hj2

/-- C5: every step accepted by the modelled Armijo backtracking
satisfies the sufficient-decrease condition
`cost(x + α·p) ≤ cost(x) + c₁·α·(directional_derivative · p)` — in
particular, the fallback `α = 0` accepted when the trial budget is
exhausted is a no-op step satisfying it trivially — and the accepted
`α` is the largest member of the geometric sequence `1, 1/2, 1/4, …`
satisfying the condition within the trial budget, or `0` when none
does. -/
theorem C5_line_search_armijo (cost : List Vec → ℚ) (x p : List Vec) (dd c1 : ℚ)
    (max_trials : Nat)
    (hlen : x.map List.length = p.map List.length) :
    armijoCond cost x p dd c1 (line_search cost x p dd c1 max_trials)
    ∧ (line_search cost x p dd c1 max_trials = 0
       ∨ ∃ i, i < max_trials
          ∧ line_search cost x p dd c1 max_trials = 1 / 2 ^ i
          ∧ armijoCond cost x p dd c1 (1 / 2 ^ i)
          ∧ ∀ j, j < i → ¬ armijoCond cost x p dd c1 (1 / 2 ^ j)) := by
  have harm0 : armijoCond cost x p dd c1 0 := by
    unfold armijoCond
    rw [zipWith_step_zero x p hlen]
    simp
  rcases backtrack_spec cost x p dd c1 max_trials 1 with ⟨h0, _⟩ | ⟨i, hin, heq, hcond, hprev⟩
  · constructor
    · rw [line_search, h0]
      exact harm0
    · exact Or.inl h0
  · constructor
    · rw [line_search, heq]
      exact hcond
    · exact Or.inr ⟨i, hin, heq, hcond, hprev⟩

theorem C5_witness :
    ([[0]] : List Vec).map List.length = ([[0]] : List Vec).map List.length
    ∧ armijoCond (fun _ => (0 : ℚ)) [[0]] [[0]] 0 0
        (line_search (fun _ => (0 : ℚ)) [[0]] [[0]] 0 0 1) :=
  ⟨rfl, (C5_line_search_armijo (fun _ => (0 : ℚ)) [[0]] [[0]] 0 0 1 rfl).1⟩

end PostLinSmooth
